import Mathlib

/-!
Verification of the row-access and bulk-transfer subsystem of
`sources/lib/api/gcp/bigquery/_table.py` (class `Table` and `Schema`).

The Python code is shallowly embedded: the remote BigQuery table is a
`List α` of already-decoded rows, Python dictionaries are association
lists, machine time is integer epoch-milliseconds, and fallible code
returns `Except String`.  Each definition names the source method it
embeds and follows its control flow line by line.
-/

namespace BQTable

/-! ## Constants (`Table._DEFAULT_PAGE_SIZE`, `Table._MSEC_PER_WEEK`,
    `Table._VALID_COLUMN_NAME_CHARACTERS`) -/

/-- `Table._DEFAULT_PAGE_SIZE = 1024` (line 285). -/
def defaultPageSize : Nat := 1024

/-- `Table._MSEC_PER_WEEK = 7 * 24 * 3600 * 1000` (line 288). -/
def msecPerWeek : Int := 7 * 24 * 3600 * 1000

/-! ## Negative-index resolution (`Table.__getitem__` lines 910-915 and
    `Table._get_row_fetcher` lines 691-697).

`Table.length` is `metadata.rows`, which is `int(numRows)` when the
service reported a row count and `-1` otherwise (line 270).  We model the
observed count as `Option Nat`. -/

/-- `TableMetadata.rows` (line 270): the observed length, `-1` when
`numRows` has never been observed. -/
def tableLength (knownRows : Option Nat) : Int :=
  match knownRows with
  | some n => (n : Int)
  | none => -1

/-- Lines 911-915 of `Table.__getitem__`: a negative integer index is
shifted by `self.length` when the length is known, otherwise the call
raises. -/
def getitemResolveIndex (knownRows : Option Nat) (item : Int) : Except String Int :=
  if item < 0 then
    if 0 ≤ tableLength knownRows then
      .ok (item + tableLength knownRows)
    else
      .error "Cannot use negative indices for table of unknown length"
  else
    .ok item

/-- Lines 691-697 of `Table._get_row_fetcher`: `if not start_row:
start_row = 0` (both `None` and `0` are falsy), `elif start_row < 0`
shift by `self.length` when known, else raise. -/
def fetcherResolveStart (knownRows : Option Nat) (startRow : Option Int) : Except String Int :=
  match startRow with
  | none => .ok 0
  | some s =>
    if s = 0 then .ok 0
    else if s < 0 then
      if 0 ≤ tableLength knownRows then
        .ok (s + tableLength knownRows)
      else
        .error "Cannot use negative indices for table of unknown length"
    else .ok s

/-! ## View resolver (`Table._convert_decorator_time`, `Table.snapshot`,
    `Table.window`, lines 936-1027).

A `when` argument is a Python `datetime` (an absolute instant) or
`timedelta` (a relative duration); both resolve to integer
epoch-milliseconds.  `datetime.utcnow()` is passed in as `now`. -/

/-- The `when` argument of the decorator helpers: `datetime` (absolute,
carrying its epoch-millisecond value) or `timedelta` (relative, carrying
its millisecond duration). -/
inductive TimeVal where
  | dt (ms : Int)
  | td (ms : Int)
deriving DecidableEq, Repr

/-- Lines 947-958 of `Table._convert_decorator_time`: the checks applied
to the resolved millisecond `value` — more than 7 days of milliseconds
below zero is rejected, and a positive value must lie strictly between
`now - _MSEC_PER_WEEK` and `now`. -/
def convertCheckRange (now value : Int) : Except String Int :=
  if value < -msecPerWeek then
    .error "Invalid snapshot relative when argument: must be within 7 days"
  else if value > 0 ∧ ¬(now - msecPerWeek < value ∧ value < now) then
    .error "Invalid snapshot absolute when argument"
  else
    .ok value

/-- `Table._convert_decorator_time` (lines 936-958), with
`datetime.utcnow()` supplied as `now` (epoch ms): a `datetime` resolves
to its epoch milliseconds, a `timedelta` to its millisecond duration and
is rejected when positive; then the range checks of lines 947-958. -/
def convertDecoratorTime (now : Int) (when : TimeVal) : Except String Int :=
  match when with
  | .dt ms => convertCheckRange now ms
  | .td ms =>
    if ms > 0 then .error "Invalid snapshot relative when argument"
    else convertCheckRange now ms

/-- `Table.snapshot` (lines 960-983): `decorator` is the current
decorator of the table's name parts (empty string when undecorated);
returns the decorated full name. -/
def snapshot (now : Int) (decorator : String) (fullName : String) (at_ : TimeVal) :
    Except String String :=
  if decorator ≠ "" then
    .error "Cannot use snapshot() on an already decorated table"
  else
    match convertDecoratorTime now at_ with
    | .error e => .error e
    | .ok value => .ok (fullName ++ "@" ++ toString value)

/-- Lines 1010-1014 of `Table.window`: a `None` end defaults to
`timedelta(0)` when `begin` is relative and to `datetime.utcnow()` when
it is absolute. -/
def windowEnd (now : Int) (begin_ : TimeVal) (end_ : Option TimeVal) : TimeVal :=
  match end_ with
  | some e => e
  | none =>
    match begin_ with
    | .td _ => .td 0
    | .dt _ => .dt now

/-- `Table.window` (lines 985-1027): undecorated check, resolve both
endpoints, reject mixed signs (`start > 0 >= stop` or `stop > 0 >=
start`), reject `start > stop`, and decorate as `@<start>-<stop>`. -/
def window (now : Int) (decorator : String) (fullName : String)
    (begin_ : TimeVal) (end_ : Option TimeVal) : Except String String :=
  if decorator ≠ "" then
    .error "Cannot use window() on an already decorated table"
  else
    match convertDecoratorTime now begin_ with
    | .error e => .error e
    | .ok start =>
      match convertDecoratorTime now (windowEnd now begin_ end_) with
      | .error e => .error e
      | .ok stop =>
        if (start > 0 ∧ 0 ≥ stop) ∨ (stop > 0 ∧ 0 ≥ start) then
          .error "window: Between arguments must both be absolute or relative"
        else if start > stop then
          .error "window: Between arguments: begin must be before end"
        else
          .ok (fullName ++ "@" ++ toString start ++ "-" ++ toString stop)

/-- The spec's sign-agreement condition for `window`: both endpoints
positive (absolute) or both non-positive (relative). -/
def sharesSign (start stop : Int) : Prop :=
  (start > 0 ∧ stop > 0) ∨ (start ≤ 0 ∧ stop ≤ 0)

instance (start stop : Int) : Decidable (sharesSign start stop) := by
  unfold sharesSign; infer_instance

/-! ## Page fetcher (`Table._get_row_fetcher._retrieve_rows`, lines
    702-727).

The remote table is a fixed `List α` of decoded rows (`_Parser.parse_row`
is modelled as the decoding that produced them).  The external `listRows`
service (spec §6) returns one page and a continuation token; a token is
the resume position, present exactly when rows remain beyond the page. -/

/-- One request issued to the external `tabledata_list` service:
whether it carried a page token or a start index, the position it reads
from, and its `max_results` argument. -/
structure ListRowsCall where
  usedToken : Bool
  index : Nat
  maxResults : Nat
deriving DecidableEq, Repr

/-- Model of the external `tabledata_list` service (spec §6 `listRows`):
reading at position `i` with `max_results = m` returns the next `m` rows
and a continuation token exactly when rows remain beyond them. -/
def tabledataList (table : List α) (i : Nat) (m : Nat) : List α × Option Nat :=
  let rs := (table.drop i).take m
  (rs, if i + rs.length < table.length then some (i + rs.length) else none)

/-- Python truthiness of the `max_rows` argument: `None` and `0` are
falsy (so a budget of `0` disables the budget checks entirely). -/
def truthyBudget : Option Nat → Bool
  | none => false
  | some b => b ≠ 0

/-- Result of one `_retrieve_rows` call: the parsed page, the next page
token, and the trace of service requests issued (empty on the budget
short-circuit). -/
structure FetchOut (α : Type u) where
  rows : List α
  pageToken : Option Nat
  calls : List ListRowsCall
deriving Repr

/-- `_retrieve_rows(page_token, count)` (lines 702-727): if the budget is
truthy and `count >= max_rows`, return an empty page and no token without
calling the service; otherwise request `min(page_size, max_rows - count)`
rows (just `page_size` when no budget), a present token taking precedence
over `start_row`. -/
def tokenPos (startRow : Nat) (pageToken : Option Nat) : Nat :=
  match pageToken with
  | some t => t
  | none => startRow

def retrieveRows (table : List α) (maxRows : Option Nat) (pageSize : Nat)
    (startRow : Nat) (pageToken : Option Nat) (count : Nat) : FetchOut α :=
  if truthyBudget maxRows ∧ maxRows.getD 0 ≤ count then
    ⟨[], none, []⟩
  else
    let b := maxRows.getD 0
    let maxResults := if truthyBudget maxRows ∧ b - count < pageSize then b - count
                      else pageSize
    let pos := tokenPos startRow pageToken
    let out := tabledataList table pos maxResults
    ⟨out.1, out.2, [⟨pageToken.isSome, pos, maxResults⟩]⟩

/-! ## Row iterator (`Table.range`, lines 731-742).

Modelled from the spec: the driving loop lives in `gcp._util.Iterator`,
which is not under `src/`; per the `_get_row_fetcher` docstring (lines
686-689) the fetcher "can be called repeatedly with a page token and
running count ... when the returned page token is None the fetch is
complete", and `Table.to_dataframe` (lines 753-766, in `src/`) drives the
identical loop: fetch, accumulate the page, add its length to the count,
stop when the token is absent.  `fuel` bounds the number of iterations. -/

/-- The iterator driving loop (modelled from the spec as above). -/
def driveFetcher (fetch : Option Nat → Nat → List α × Option Nat) :
    Nat → Option Nat → Nat → List α
  | 0, _, _ => []
  | fuel + 1, token, count =>
    let out := fetch token count
    match out.2 with
    | none => out.1
    | some t => out.1 ++ driveFetcher fetch fuel (some t) (count + out.1.length)

/-- `Table.range(start_row, max_rows)` driven to exhaustion: the list of
all rows the iterator yields (with explicit fuel and page size; `range`
itself uses `page_size = _DEFAULT_PAGE_SIZE`). -/
def rangeRows (table : List α) (startRow : Nat) (maxRows : Option Nat)
    (pageSize : Nat) (fuel : Nat) : List α :=
  driveFetcher
    (fun token count =>
      let out := retrieveRows table maxRows pageSize startRow token count
      (out.rows, out.pageToken))
    fuel none 0

/-! ## Random-access cache (`Table.__getitem__`, lines 893-934). -/

/-- The one-page cache carried by a `Table` object:
`self._cached_page` (initially `None`, modelled as `[]`, which is
equally falsy) and `self._cached_page_index` (initially `0`). -/
structure TableCache (α : Type u) where
  cachedPage : List α
  cachedPageIndex : Nat
deriving Repr

/-- The initial cache state (lines 301-302). -/
def initCache : TableCache α := ⟨[], 0⟩

/-- The miss condition of lines 917-919: no cached page, or the index
falls before or after the cached page. -/
def cacheMiss (st : TableCache α) (item : Nat) : Prop :=
  st.cachedPage.isEmpty = true ∨ item < st.cachedPageIndex ∨
    st.cachedPageIndex + st.cachedPage.length ≤ item

instance (st : TableCache α) (item : Nat) : Decidable (cacheMiss st item) := by
  unfold cacheMiss; infer_instance

/-- Lines 923-928 of `Table.__getitem__`: the page size requested on a
miss — `_DEFAULT_PAGE_SIZE`, clamped to the remaining known length when
the length is known (truncated subtraction models Python's negative
remainder; either way the fetched page is empty past the end). -/
def cachePageCount (table : List α) (knownLength : Bool) (first : Nat) : Nat :=
  if knownLength ∧ table.length - first < defaultPageSize then
    table.length - first
  else
    defaultPageSize

/-- The integer-index case of `Table.__getitem__` (lines 917-934), after
negative-index resolution.  `knownLength = true` models
`self.length >= 0` with the metadata row count agreeing with the remote
table (`self.length = table.length`); on a miss the page starting at
`floor(item / _DEFAULT_PAGE_SIZE) * _DEFAULT_PAGE_SIZE` is fetched via
`self._get_row_fetcher(start_row=first, max_rows=count, page_size=count)`
called as `fetcher(None, 0)` and replaces the cache wholesale.  Returns
the row (`none` modelling the out-of-range `IndexError`) and the new
cache state. -/
def getitem (table : List α) (knownLength : Bool) (st : TableCache α)
    (item : Nat) : Option α × TableCache α :=
  if cacheMiss st item then
    let first := item / defaultPageSize * defaultPageSize
    let count := cachePageCount table knownLength first
    let page := (retrieveRows table (some count) count first none 0).rows
    (page[item - first]?, ⟨page, first⟩)
  else
    (st.cachedPage[item - st.cachedPageIndex]?, st)

/-- The page actually resident in the cache is a true slice of the
remote table at the cached start position (the invariant every reachable
cache state satisfies). -/
def cacheConsistent (table : List α) (st : TableCache α) : Prop :=
  ∃ c, st.cachedPage = (table.drop st.cachedPageIndex).take c

/-- A sequence of indexed accesses threaded through the cache
(`table[i]` for each `i` in turn), returning the final cache state. -/
def runAccesses (table : List α) (knownLength : Bool) :
    TableCache α → List Nat → TableCache α
  | st, [] => st
  | st, i :: is => runAccesses table knownLength (getitem table knownLength st i).2 is

/-- A fresh single-row fetch at index `i`: one page of one row starting
at `i`, exactly as `__getitem__` would issue it with a one-row page. -/
def freshSingleRowFetch (table : List α) (i : Nat) : Option α :=
  (retrieveRows table (some 1) 1 i none 0).rows.head?

/-! ## Field-name sanitization (`Table._encode_dict_as_row`, lines
    406-433, and `Table._VALID_COLUMN_NAME_CHARACTERS`, line 282). -/

/-- `Table._VALID_COLUMN_NAME_CHARACTERS` (line 282), verbatim. -/
def validColumnNameCharacters : String :=
  "_abcdefghijklmnopqrstuvwxyzABCDEFGHIJKLMNOPQRSTUVWXYZ0123456789"

/-- `''.join(c for c in k if c in Table._VALID_COLUMN_NAME_CHARACTERS)`
(line 428): keep exactly the characters of the allowed set, in order. -/
def sanitizeName (k : String) : String :=
  ⟨k.data.filter (fun c => validColumnNameCharacters.data.contains c)⟩

/-- The character class `[A-Za-z0-9_]` named by the spec, as an explicit
list of characters. -/
def specValidChars : List Char :=
  '_' :: ((List.range 26).map (fun i => Char.ofNat (97 + i)) ++
          (List.range 26).map (fun i => Char.ofNat (65 + i)) ++
          (List.range 10).map (fun i => Char.ofNat (48 + i)))

/-- The per-`insertAll`-call `column_name_map` memo (a Python dict from
original key to sanitized key), as an association list. -/
abbrev Memo := List (String × String)

/-- Dictionary lookup in the memo. -/
def memoLookup (m : Memo) (k : String) : Option String :=
  (m.find? (fun e => e.1 = k)).map (·.2)

/-- Lines 427-429: if `k` is not yet in `column_name_map`, store its
sanitized form; then read the mapped name back. -/
def appliedName (m : Memo) (k : String) : String × Memo :=
  match memoLookup m k with
  | some v => (v, m)
  | none => (sanitizeName k, m ++ [(k, sanitizeName k)])

/-- The memo invariant: every entry maps a key to its sanitized form. -/
def memoGood (m : Memo) : Prop :=
  ∀ p ∈ m, p.2 = sanitizeName p.1

/-! ## Record encoding (`Table._encode_dict_as_row`, lines 406-433).

A record is a Python dict from field name to value, modelled as an
association list; `dictSet` overwrites in place, `dictDel` removes.
`record.keys()` is a snapshot taken before the loop (Python 2 `keys()`
returns a fresh list).  In-place mutation of the caller's dict is
modelled by returning the record value the caller observes afterwards. -/

/-- A value stored in a row to be streamed: a timestamp
(`pd.Timestamp` / `datetime`, carrying the string its `isoformat()`
would produce), a string, or a number. -/
inductive BQVal where
  | timestamp (iso : String)
  | str (s : String)
  | int (n : Int)
deriving DecidableEq, Repr

/-- `isinstance(v, pd.Timestamp) or isinstance(v, datetime)` (line 423). -/
def isTimestampVal : BQVal → Bool
  | .timestamp _ => true
  | _ => false

/-- Line 424: a timestamp value is replaced by its `isoformat()` string;
other values are unchanged. -/
def encVal : BQVal → BQVal
  | .timestamp iso => .str iso
  | v => v

/-- A Python dict record, as an association list. -/
abbrev Record := List (String × BQVal)

/-- Python `record[k]`. -/
def dictLookup (r : Record) (k : String) : Option BQVal :=
  (r.find? (fun e => e.1 = k)).map (·.2)

/-- Python `record[k] = v`: overwrite in place if present, else append. -/
def dictSet (r : Record) (k : String) (v : BQVal) : Record :=
  if r.any (fun e => e.1 = k) then
    r.map (fun e => if e.1 = k then (k, v) else e)
  else
    r ++ [(k, v)]

/-- Python `del record[k]`. -/
def dictDel (r : Record) (k : String) : Record :=
  r.filter (fun e => ¬ e.1 = k)

/-- Python `record.keys()`. -/
def dictKeys (r : Record) : List String := r.map (·.1)

/-- One iteration of the loop of `_encode_dict_as_row` (lines 420-432)
for the key `k`: read `v = record[k]`, ISO-encode a timestamp in place,
map the name through the memo, and on a rename write the value under the
new name and delete the old key.  (A key absent from the record would be
a Python `KeyError`; the record is returned unchanged in that case.) -/
def encodeKey (rm : Record × Memo) (k : String) : Record × Memo :=
  match dictLookup rm.1 k with
  | none => rm
  | some v0 =>
    let v := encVal v0
    let record1 := if isTimestampVal v0 then dictSet rm.1 k v else rm.1
    let nm := appliedName rm.2 k
    if k ≠ nm.1 then
      (dictDel (dictSet record1 nm.1 v) k, nm.2)
    else
      (record1, nm.2)

/-- `Table._encode_dict_as_row(record, column_name_map)` (lines
406-433): fold the per-key step over the snapshot of the record's keys;
returns the (in-place mutated) record and the updated memo. -/
def encodeDictAsRow (record : Record) (m : Memo) : Record × Memo :=
  (dictKeys record).foldl encodeKey (record, m)

/-- Lines 502-511 of `Table.insertAll`: every record of the batch is
encoded through the one shared `column_name_map`; returns the records as
the caller observes them after the call, with the final memo. -/
def encodeAll (records : List Record) (m : Memo) : List Record × Memo :=
  match records with
  | [] => ([], m)
  | r :: rest =>
    let e := encodeDictAsRow r m
    let out := encodeAll rest e.2
    (e.1 :: out.1, out.2)

/-! ## Batch flushing (`Table.insertAll`, lines 435-522). -/

/-- `max_rows_per_post = 500` (line 459). -/
def maxRowsPerPost : Nat := 500

/-- An observable action of the `insertAll` loop: a physical
`tabledata_insertAll` request carrying a batch, or the fixed
`time.sleep(0.1)` that follows a successful one (line 520). -/
inductive InsertEvent (ρ : Type u) where
  | post (batch : List ρ)
  | sleep100ms
deriving DecidableEq, Repr

/-- The loop of lines 502-521 (every request assumed successful): push
each record onto the accumulating batch, and flush — a `post` followed by
a `sleep100ms` — exactly when the running total reaches `total_rows` or
the batch holds `max_rows_per_post` rows. -/
def insertAllGo (totalRows : Nat) : List ρ → List ρ → Nat → List (InsertEvent ρ)
  | [], _, _ => []
  | r :: rest, rows, pushed =>
    let rows' := rows ++ [r]
    let pushed' := pushed + 1
    if pushed' = totalRows ∨ rows'.length = maxRowsPerPost then
      .post rows' :: .sleep100ms :: insertAllGo totalRows rest [] pushed'
    else
      insertAllGo totalRows rest rows' pushed'

/-- The event trace of `Table.insertAll` over a list source. -/
def insertAllEvents (records : List ρ) : List (InsertEvent ρ) :=
  insertAllGo records.length records [] 0

/-- The batches carried by the `post` events of a trace, in order. -/
def postedBatches (evs : List (InsertEvent ρ)) : List (List ρ) :=
  evs.filterMap
    (fun e => match e with
              | .post b => some b
              | .sleep100ms => none)

/-- The physical batches posted by `Table.insertAll`, in order. -/
def insertAllBatches (records : List ρ) : List (List ρ) :=
  postedBatches (insertAllEvents records)

/-! ## Schema inference and validation (`Schema._from_list`, lines
    123-156, and the validation loop of `Table.insertAll`, lines
    476-485). -/

/-- A Python value as seen by `Schema._from_list._get_type`. -/
inductive PyVal where
  | pyDatetime
  | pyBool (b : Bool)
  | pyInt (n : Int)
  | pyFloat
  | pyStr (s : String)
deriving DecidableEq, Repr

/-- Python `isinstance(value, int)`: true for `int` AND for `bool`,
because `bool` is a subclass of `int` in Python. -/
def pyIsInstanceInt : PyVal → Bool
  | .pyBool _ => true
  | .pyInt _ => true
  | _ => false

/-- `_get_type` (lines 139-149): `datetime`, then `int`, then `float`,
then `bool`, else `STRING`.  The `int` test precedes the `bool` test and
Python booleans satisfy it, so the `BOOLEAN` branch is unreachable. -/
def getFieldType (value : PyVal) : String :=
  if value = .pyDatetime then "TIMESTAMP"
  else if pyIsInstanceInt value then "INTEGER"
  else if value = .pyFloat then "FLOAT"
  else if (match value with | .pyBool _ => true | _ => false) then "BOOLEAN"
  else "STRING"

/-- The first item of a list passed to `Schema._from_list`: a dict (its
keys become field names) or a list (fields named `Column1`, ...). -/
inductive Datum where
  | dict (entries : List (String × PyVal))
  | arr (values : List PyVal)
deriving Repr

/-- An inferred or declared schema field, as a `(name, type)` pair. -/
abbrev SchemaField := String × String

/-- `Schema._from_list` (lines 123-156): empty data gives an empty
schema; otherwise the first item alone determines names and types. -/
def schemaFromList : List Datum → List SchemaField
  | [] => []
  | datum :: _ =>
    match datum with
    | .dict entries => entries.map (fun kv => (kv.1, getFieldType kv.2))
    | .arr values =>
      values.enum.map (fun iv => ("Column" ++ toString (iv.1 + 1), getFieldType iv.2))

/-- `table_schema[name]` (line 478 via `Schema.__getitem__`, line 184):
lookup of a field's declared type by name. -/
def lookupFieldType (tableSchema : List SchemaField) (name : String) : Option String :=
  (tableSchema.find? (fun f => f.1 = name)).map (·.2)

/-- The validation loop of `Table.insertAll` (lines 476-485): every
inferred field must exist in the table schema with the identical type. -/
def validateSchemas (dataSchema tableSchema : List SchemaField) : Except String Unit :=
  match dataSchema with
  | [] => .ok ()
  | f :: rest =>
    match lookupFieldType tableSchema f.1 with
    | none => .error ("Table does not contain field " ++ f.1)
    | some tableType =>
      if tableType ≠ f.2 then
        .error ("Field " ++ f.1 ++ " in data has type " ++ f.2 ++
                " but in table has type " ++ tableType)
      else
        validateSchemas rest tableSchema

/-! # Theorems -/

/-- Helper: `sharesSign` is exactly the negation of the mixed-sign
rejection test of `Table.window` (line 1018). -/
theorem sharesSign_iff_not_mixed (start stop : Int) :
    sharesSign start stop ↔ ¬ ((start > 0 ∧ 0 ≥ stop) ∨ (stop > 0 ∧ 0 ≥ start)) := by
  unfold sharesSign
  omega

/-- **C8**: for every negative index, both `Table.__getitem__` and
`Table._get_row_fetcher` resolve the index to `knownLength + index` when
the length has been observed, and raise the length-unknown error when it
has not. -/
theorem negative_index_resolution (i : Int) (hi : i < 0) :
    (∀ L : Nat,
        getitemResolveIndex (some L) i = .ok (i + L)
      ∧ fetcherResolveStart (some L) (some i) = .ok (i + L))
  ∧ getitemResolveIndex none i =
      .error "Cannot use negative indices for table of unknown length"
  ∧ fetcherResolveStart none (some i) =
      .error "Cannot use negative indices for table of unknown length" := by
  refine ⟨fun L => ⟨?_, ?_⟩, ?_, ?_⟩
  · simp only [getitemResolveIndex, tableLength]
    rw [if_pos hi, if_pos (by omega : (0:Int) ≤ (L:Int))]
  · simp only [fetcherResolveStart, tableLength]
    rw [if_neg (by omega : ¬ i = 0), if_pos hi, if_pos (by omega : (0:Int) ≤ (L:Int))]
  · simp only [getitemResolveIndex, tableLength]
    rw [if_pos hi, if_neg (by omega : ¬ (0:Int) ≤ -1)]
  · simp only [fetcherResolveStart, tableLength]
    rw [if_neg (by omega : ¬ i = 0), if_pos hi, if_neg (by omega : ¬ (0:Int) ≤ -1)]

/-- Witness for C8 at `i = -1`, `L = 5`: `table[-1]` reads index `4`. -/
theorem negative_index_resolution_witness :
    (-1 : Int) < 0
  ∧ ((∀ L : Nat,
        getitemResolveIndex (some L) (-1) = .ok (-1 + L)
      ∧ fetcherResolveStart (some L) (some (-1)) = .ok (-1 + L))
  ∧ getitemResolveIndex none (-1) =
      .error "Cannot use negative indices for table of unknown length"
  ∧ fetcherResolveStart none (some (-1)) =
      .error "Cannot use negative indices for table of unknown length") :=
  ⟨by decide, negative_index_resolution (-1) (by decide)⟩

/-- **C6** counterexample: the absolute instant at epoch millisecond `0`
(`datetime.utcfromtimestamp(0)`), with `now` far later, resolves to `0`,
which is neither within the last 7 days nor rejected — the code accepts
it because the `value > 0` guard (line 951) skips the absolute range
check for non-positive values, while the claim demands a validation
error for every absolute instant outside the last 7 days. -/
theorem convert_epoch_instant_accepted :
    convertDecoratorTime (10 * msecPerWeek) (.dt 0) = .ok 0
  ∧ ¬ (10 * msecPerWeek - msecPerWeek < 0 ∧ (0:Int) < 10 * msecPerWeek) := by
  constructor
  · rfl
  · decide

/-- **C6** (amended): positive relative durations are rejected; relative
durations in `[-7 days, 0]` are accepted; an absolute instant resolving
to a *positive* epoch-millisecond value is accepted exactly when it lies
strictly within the last 7 days and strictly in the past, and rejected
with the absolute-argument error otherwise; but an absolute instant
resolving to a non-positive value escapes that check and is accepted
whenever it is at least 7 days' worth of milliseconds below zero. -/
theorem convert_decorator_time_rules (now ms : Int) :
    (0 < ms → convertDecoratorTime now (.td ms) =
        .error "Invalid snapshot relative when argument")
  ∧ (ms ≤ 0 → -msecPerWeek ≤ ms → convertDecoratorTime now (.td ms) = .ok ms)
  ∧ (ms < -msecPerWeek → convertDecoratorTime now (.dt ms) =
        .error "Invalid snapshot relative when argument: must be within 7 days")
  ∧ (0 < ms →
      (convertDecoratorTime now (.dt ms) = .ok ms ↔
        (now - msecPerWeek < ms ∧ ms < now)))
  ∧ (0 < ms → ¬ (now - msecPerWeek < ms ∧ ms < now) →
      convertDecoratorTime now (.dt ms) =
        .error "Invalid snapshot absolute when argument")
  ∧ (ms ≤ 0 → -msecPerWeek ≤ ms → convertDecoratorTime now (.dt ms) = .ok ms) := by
  have hweek : (0:Int) < msecPerWeek := by decide
  refine ⟨fun h => ?_, fun h h' => ?_, fun h => ?_, fun h => ?_, fun h h' => ?_,
    fun h h' => ?_⟩
  · simp only [convertDecoratorTime]
    rw [if_pos (by omega : ms > 0)]
  · simp only [convertDecoratorTime, convertCheckRange]
    rw [if_neg (by omega : ¬ ms > 0), if_neg (by omega : ¬ ms < -msecPerWeek),
      if_neg (by omega : ¬ (ms > 0 ∧ ¬ (now - msecPerWeek < ms ∧ ms < now)))]
  · simp only [convertDecoratorTime, convertCheckRange]
    rw [if_pos h]
  · simp only [convertDecoratorTime, convertCheckRange]
    rw [if_neg (by omega : ¬ ms < -msecPerWeek)]
    constructor
    · intro hok
      by_contra hrange
      rw [if_pos ⟨by omega, hrange⟩] at hok
      exact Except.noConfusion hok
    · intro hrange
      rw [if_neg (show ¬ (ms > 0 ∧ ¬ (now - msecPerWeek < ms ∧ ms < now)) from
        fun hc => hc.2 hrange)]
  · simp only [convertDecoratorTime, convertCheckRange]
    rw [if_neg (by omega : ¬ ms < -msecPerWeek), if_pos ⟨by omega, h'⟩]
  · simp only [convertDecoratorTime, convertCheckRange]
    rw [if_neg (by omega : ¬ ms < -msecPerWeek),
      if_neg (by omega : ¬ (ms > 0 ∧ ¬ (now - msecPerWeek < ms ∧ ms < now)))]

/-- Witness for C6 at `now = 10 * msecPerWeek`: a one-hour-ago snapshot
succeeds, an eight-days-ago snapshot is rejected, a one-hour relative
offset (negative) succeeds, and a positive relative duration is
rejected. -/
theorem convert_decorator_time_rules_witness :
    convertDecoratorTime (10 * msecPerWeek) (.td (-3600000)) = .ok (-3600000)
  ∧ convertDecoratorTime (10 * msecPerWeek)
      (.dt (10 * msecPerWeek - 3600000)) = .ok (10 * msecPerWeek - 3600000)
  ∧ convertDecoratorTime (10 * msecPerWeek)
      (.dt (10 * msecPerWeek - 8 * 24 * 3600 * 1000)) =
      .error "Invalid snapshot absolute when argument"
  ∧ convertDecoratorTime (10 * msecPerWeek) (.td 1) =
      .error "Invalid snapshot relative when argument" :=
  ⟨(convert_decorator_time_rules (10 * msecPerWeek) (-3600000)).2.1
      (by decide) (by decide),
   ((convert_decorator_time_rules (10 * msecPerWeek)
        (10 * msecPerWeek - 3600000)).2.2.2.1 (by decide)).2 (by decide),
   (convert_decorator_time_rules (10 * msecPerWeek)
        (10 * msecPerWeek - 8 * 24 * 3600 * 1000)).2.2.2.2.1
      (by decide) (by decide),
   (convert_decorator_time_rules (10 * msecPerWeek) 1).1 (by decide)⟩

/-- **C3** counterexample: `window(timedelta(0), timedelta(0))` resolves
both endpoints to `0` — so `start` is NOT strictly less than `stop` —
yet the code accepts it and produces the decoration `@0-0`, because line
1023 only rejects `start > stop`.  The claim demands an error whenever
`start` is not strictly less than `stop`. -/
theorem window_equal_endpoints_accepted :
    window 0 "" "t" (.td 0) (some (.td 0)) = .ok "t@0-0"
  ∧ convertDecoratorTime 0 (.td 0) = .ok 0
  ∧ ¬ ((0:Int) < 0) := by
  refine ⟨rfl, rfl, by decide⟩

/-- **C3** (amended): on an undecorated table, with both endpoints
resolving successfully to `start` and `stop`, `window` succeeds and
produces the decoration `@<start>-<stop>` exactly when the two values
share sign (both positive-absolute or both non-positive-relative) and
`start ≤ stop`; mixed signs or `start > stop` raise an error. -/
theorem window_success_iff (now : Int) (fullName : String) (begin_ : TimeVal)
    (end_ : Option TimeVal) (start stop : Int)
    (hb : convertDecoratorTime now begin_ = .ok start)
    (he : convertDecoratorTime now (windowEnd now begin_ end_) = .ok stop) :
    ((∃ s, window now "" fullName begin_ end_ = .ok s) ↔
        sharesSign start stop ∧ start ≤ stop)
  ∧ (sharesSign start stop → start ≤ stop →
      window now "" fullName begin_ end_ =
        .ok (fullName ++ "@" ++ toString start ++ "-" ++ toString stop)) := by
  have hw : window now "" fullName begin_ end_ =
      (if (start > 0 ∧ 0 ≥ stop) ∨ (stop > 0 ∧ 0 ≥ start) then
        .error "window: Between arguments must both be absolute or relative"
      else if start > stop then
        .error "window: Between arguments: begin must be before end"
      else
        .ok (fullName ++ "@" ++ toString start ++ "-" ++ toString stop)) := by
    simp only [window, hb, he]
    rw [if_neg (by simp)]
  constructor
  · constructor
    · rintro ⟨s, hs⟩
      rw [hw] at hs
      by_cases hmix : (start > 0 ∧ 0 ≥ stop) ∨ (stop > 0 ∧ 0 ≥ start)
      · rw [if_pos hmix] at hs
        exact Except.noConfusion hs
      · rw [if_neg hmix] at hs
        by_cases hlt : start > stop
        · rw [if_pos hlt] at hs
          exact Except.noConfusion hs
        · exact ⟨(sharesSign_iff_not_mixed start stop).2 hmix, by omega⟩
    · rintro ⟨hsign, hle⟩
      refine ⟨fullName ++ "@" ++ toString start ++ "-" ++ toString stop, ?_⟩
      rw [hw, if_neg ((sharesSign_iff_not_mixed start stop).1 hsign),
        if_neg (by omega : ¬ start > stop)]
  · intro hsign hle
    rw [hw, if_neg ((sharesSign_iff_not_mixed start stop).1 hsign),
      if_neg (by omega : ¬ start > stop)]

/-- Witness for C3 at `window(-2ms, -1ms)` (both relative,
`start < stop`): succeeds and renders `@-2--1`. -/
theorem window_success_iff_witness :
    ((∃ s, window 0 "" "t" (.td (-2)) (some (.td (-1))) = .ok s) ↔
        sharesSign (-2) (-1) ∧ (-2:Int) ≤ -1)
  ∧ (sharesSign (-2) (-1) → (-2:Int) ≤ -1 →
      window 0 "" "t" (.td (-2)) (some (.td (-1))) =
        .ok ("t" ++ "@" ++ toString (-2:Int) ++ "-" ++ toString (-1:Int))) :=
  window_success_iff 0 "t" (.td (-2)) (some (.td (-1))) (-2) (-1) rfl rfl

/-- Helper: the budget short-circuit of `_retrieve_rows` (line 705) for
a nonzero budget that the running count has reached. -/
theorem retrieveRows_reached (table : List α) (b pageSize startRow count : Nat)
    (token : Option Nat) (hb : 1 ≤ b) (hreached : b ≤ count) :
    retrieveRows table (some b) pageSize startRow token count =
      ⟨[], none, []⟩ := by
  simp only [retrieveRows]
  rw [if_pos ⟨by simp only [truthyBudget]; simpa using (by omega : ¬ b = 0),
    by simpa using hreached⟩]

/-- Helper: the fetching path of `_retrieve_rows` for a nonzero budget
the running count has not yet reached: one `tabledata_list` request at
the token position (or `start_row` without a token) for
`min(page_size, max_rows - count)` rows. -/
theorem retrieveRows_budget_step (table : List α) (b P s count : Nat)
    (token : Option Nat) (hb : 1 ≤ b) (hc : count < b) :
    retrieveRows table (some b) P s token count =
      { rows := (table.drop (tokenPos s token)).take (min P (b - count)),
        pageToken :=
          (tabledataList table (tokenPos s token) (min P (b - count))).2,
        calls := [⟨token.isSome, tokenPos s token, min P (b - count)⟩] } := by
  simp only [retrieveRows]
  rw [if_neg (by
    simp only [truthyBudget, Option.getD]
    intro hcon
    exact absurd hcon.2 (by omega))]
  have hm : (if truthyBudget (some b) = true ∧ (some b).getD 0 - count < P
      then (some b).getD 0 - count else P) = min P (b - count) := by
    simp only [truthyBudget, Option.getD]
    rcases Nat.lt_or_ge (b - count) P with h | h
    · rw [if_pos ⟨by simpa using (by omega : ¬ b = 0), h⟩]
      omega
    · rw [if_neg (by
        intro hcon
        omega)]
      omega
  simp only [hm, tabledataList]

/-- Helper: `_retrieve_rows` with `max_rows = None` (and equally with
the falsy `max_rows = 0`) always fetches a full `page_size` page. -/
theorem retrieveRows_nobudget_step (table : List α) (P s count : Nat)
    (token : Option Nat) :
    retrieveRows table none P s token count =
      { rows := (table.drop (tokenPos s token)).take P,
        pageToken := (tabledataList table (tokenPos s token) P).2,
        calls := [⟨token.isSome, tokenPos s token, P⟩] } := by
  simp only [retrieveRows, truthyBudget, tabledataList, false_and, if_false,
    Bool.false_eq_true]

/-- **C5** counterexample: with a configured row budget of `0`, a
running count of `0` has reached the budget, yet `_retrieve_rows` issues
a `tabledata_list` request and returns a row, because Python treats
`max_rows = 0` as falsy in `if max_rows and count >= max_rows` (line
705) and skips the short-circuit.  The claim demands an empty row list
and no network request for every configured budget. -/
theorem retrieve_rows_zero_budget_fetches :
    (retrieveRows [(0:Nat)] (some 0) 1 0 none 0).calls ≠ []
  ∧ (retrieveRows [(0:Nat)] (some 0) 1 0 none 0).rows = [0] := by
  refine ⟨?_, rfl⟩
  intro h
  exact List.noConfusion h

/-- **C5** (amended): for every *positive* configured row budget and
every running count that has reached it, `_retrieve_rows` returns an
empty row list and a `None` continuation token without issuing any
request to the `tabledata_list` service. -/
theorem retrieve_rows_budget_short_circuit (table : List α) (b pageSize startRow count : Nat)
    (token : Option Nat) (hb : 1 ≤ b) (hreached : b ≤ count) :
    retrieveRows table (some b) pageSize startRow token count =
      ⟨[], none, []⟩ :=
  retrieveRows_reached table b pageSize startRow count token hb hreached

/-- Witness for C5 at budget `1`, count `1`, on a two-row table. -/
theorem retrieve_rows_budget_short_circuit_witness :
    retrieveRows [10, 20] (some 1) 1024 0 (some 1) 1 =
      ({ rows := ([] : List Nat), pageToken := none, calls := [] } : FetchOut Nat) :=
  retrieve_rows_budget_short_circuit [10, 20] 1 1024 0 1 (some 1) (by decide) (by decide)

/-- Helper: driving the budgeted fetcher from position `s + count` with
a valid token/count pair and enough fuel yields exactly
`min(remaining remote rows, remaining budget)` rows. -/
theorem drive_budget_length (table : List α) (s P b : Nat) (hP : 1 ≤ P) (hb : 1 ≤ b) :
    ∀ (fuel count : Nat) (token : Option Nat),
      (token = none ∧ count = 0 ∨ token = some (s + count)) →
      count ≤ b →
      table.length - (s + count) + 2 ≤ fuel →
      (driveFetcher
          (fun tok cnt => ((retrieveRows table (some b) P s tok cnt).rows,
                           (retrieveRows table (some b) P s tok cnt).pageToken))
          fuel token count).length
        = min (table.length - (s + count)) (b - count) := by
  intro fuel
  induction fuel with
  | zero =>
    intro count token _ _ hfuel
    omega
  | succ n ih =>
    intro count token hinv hcb hfuel
    by_cases hstop : b ≤ count
    · simp only [driveFetcher, retrieveRows_reached table b P s count token hb hstop,
        List.length_nil]
      omega
    · have hc : count < b := by omega
      have hpos : tokenPos s token = s + count := by
        rcases hinv with ⟨ht, hc0⟩ | ht
        · subst ht; subst hc0; rfl
        · subst ht; rfl
      have hstep := retrieveRows_budget_step table b P s count token hb hc
      rw [hpos] at hstep
      set rs := (table.drop (s + count)).take (min P (b - count)) with hrs
      have hrl : rs.length = min (min P (b - count)) (table.length - (s + count)) := by
        rw [hrs]
        simp [Nat.min_comm]
      simp only [driveFetcher, hstep, tabledataList]
      by_cases hmore : s + count + rs.length < table.length
      · rw [if_pos hmore]
        simp only [List.length_append]
        have hrl1 : 1 ≤ rs.length := by omega
        have hrec := ih (count + rs.length) (some (s + count + rs.length))
          (Or.inr (by rw [Nat.add_assoc])) (by omega) (by omega)
        rw [hrec]
        omega
      · rw [if_neg hmore]
        dsimp only
        omega

/-- Helper: driving the unbudgeted fetcher from position `s + count`
with enough fuel yields every remaining remote row. -/
theorem drive_nobudget_length (table : List α) (s P : Nat) (hP : 1 ≤ P) :
    ∀ (fuel count : Nat) (token : Option Nat),
      (token = none ∧ count = 0 ∨ token = some (s + count)) →
      table.length - (s + count) + 2 ≤ fuel →
      (driveFetcher
          (fun tok cnt => ((retrieveRows table none P s tok cnt).rows,
                           (retrieveRows table none P s tok cnt).pageToken))
          fuel token count).length
        = table.length - (s + count) := by
  intro fuel
  induction fuel with
  | zero =>
    intro count token _ hfuel
    omega
  | succ n ih =>
    intro count token hinv hfuel
    have hpos : tokenPos s token = s + count := by
      rcases hinv with ⟨ht, hc0⟩ | ht
      · subst ht; subst hc0; rfl
      · subst ht; rfl
    have hstep := retrieveRows_nobudget_step table P s count token
    rw [hpos] at hstep
    set rs := (table.drop (s + count)).take P with hrs
    have hrl : rs.length = min P (table.length - (s + count)) := by
      rw [hrs]
      simp [Nat.min_comm]
    simp only [driveFetcher, hstep, tabledataList]
    by_cases hmore : s + count + rs.length < table.length
    · rw [if_pos hmore]
      simp only [List.length_append]
      have hrl1 : 1 ≤ rs.length := by omega
      have hrec := ih (count + rs.length) (some (s + count + rs.length))
        (Or.inr (by rw [Nat.add_assoc])) (by omega)
      rw [hrec]
      omega
    · rw [if_neg hmore]
      dsimp only
      omega

/-- **C2** counterexample: a row budget *set* to `0` is falsy in Python
(`if max_rows and ...`, lines 705 and 708), so the iterator treats it as
unset and yields every remote row instead of `min(totalRemoteRows, 0) =
0` rows: on a one-row table it yields 1 row. -/
theorem range_zero_budget_yields_all :
    (rangeRows [(7:Nat)] 0 (some 0) 1 3).length = 1
  ∧ min ([(7:Nat)].length - 0) 0 = 0 := by
  constructor
  · rfl
  · rfl

/-- **C2** (amended): for every page size `P ≥ 1` and every set row
budget `B ≥ 1`, iterating the row iterator of `Table.range` to
exhaustion yields exactly `min(totalRemoteRows, B)` rows, where
`totalRemoteRows = table.length - startRow` is what the remote service
holds from the start offset; an unset budget yields all
`totalRemoteRows` rows (and so does a budget set to `0`, which Python
treats as unset); and each individual fetch before the budget is reached
requests exactly `min(P, B - count)` rows. -/
theorem range_yields_min_of_budget (table : List α) (s P b fuel : Nat)
    (hP : 1 ≤ P) (hb : 1 ≤ b) (hfuel : table.length + 2 ≤ fuel) :
    (rangeRows table s (some b) P fuel).length = min (table.length - s) b
  ∧ (rangeRows table s none P fuel).length = table.length - s
  ∧ (∀ (token : Option Nat) (count : Nat), count < b →
      ∀ c ∈ (retrieveRows table (some b) P s token count).calls,
        c.maxResults = min P (b - count)) := by
  refine ⟨?_, ?_, ?_⟩
  · have h := drive_budget_length table s P b hP hb fuel 0 none
      (Or.inl ⟨rfl, rfl⟩) (by omega) (by omega)
    simpa [rangeRows] using h
  · have h := drive_nobudget_length table s P hP fuel 0 none
      (Or.inl ⟨rfl, rfl⟩) (by omega)
    simpa [rangeRows] using h
  · intro token count hc c hcall
    rw [retrieveRows_budget_step table b P s count token hb hc] at hcall
    simp only [List.mem_singleton] at hcall
    subst hcall
    rfl

/-- Witness for C2: a 3-row table with page size 1 and budget 2 yields
exactly 2 rows; without a budget it yields all 3. -/
theorem range_yields_min_of_budget_witness :
    (rangeRows [10, 20, 30] 0 (some 2) 1 5).length = min ([10, 20, 30].length - 0) 2
  ∧ (rangeRows [(10:Nat), 20, 30] 0 none 1 5).length = [(10:Nat), 20, 30].length - 0
  ∧ (∀ (token : Option Nat) (count : Nat), count < 2 →
      ∀ c ∈ (retrieveRows [(10:Nat), 20, 30] (some 2) 1 0 token count).calls,
        c.maxResults = min 1 (2 - count)) :=
  range_yields_min_of_budget [10, 20, 30] 0 1 2 5 (by decide) (by decide) (by decide)

/-- Helper: invariant induction over the `insertAll` loop.  With the
running total agreeing with the remaining source and a partial batch
below the 500-row ceiling, the loop posts `ceil(pending / 500)` batches,
the trace is exactly a `post` followed by a `sleep100ms` per batch, the
batches concatenate to the pending records, and every batch is non-empty
and within the ceiling. -/
theorem insertAllGo_spec (totalRows : Nat) :
    ∀ (rest rows : List ρ) (pushed : Nat),
      pushed + rest.length = totalRows → rest ≠ [] →
      rows.length < maxRowsPerPost →
      (postedBatches (insertAllGo totalRows rest rows pushed)).length
          = (rows.length + rest.length + 499) / 500
      ∧ insertAllGo totalRows rest rows pushed
          = (postedBatches (insertAllGo totalRows rest rows pushed)).flatMap
              (fun b => [.post b, .sleep100ms])
      ∧ (postedBatches (insertAllGo totalRows rest rows pushed)).flatten = rows ++ rest
      ∧ ∀ b ∈ postedBatches (insertAllGo totalRows rest rows pushed),
          0 < b.length ∧ b.length ≤ maxRowsPerPost := by
  intro rest
  induction rest with
  | nil =>
    intro rows pushed _ hne _
    exact absurd rfl hne
  | cons r rest' ih =>
    intro rows pushed hinv _ hlen
    simp only [maxRowsPerPost] at hlen
    by_cases hend : rest' = []
    · subst hend
      have hflush : pushed + 1 = totalRows ∨ (rows ++ [r]).length = maxRowsPerPost :=
        Or.inl (by simpa using hinv)
      simp only [insertAllGo, if_pos hflush, postedBatches, List.filterMap_cons,
        List.filterMap_nil]
      refine ⟨?_, by simp, by simp, ?_⟩
      · simp only [List.length_cons, List.length_nil, List.length_append]
        omega
      · intro b hb
        simp only [List.mem_singleton] at hb
        subst hb
        simp only [maxRowsPerPost, List.length_append, List.length_cons,
          List.length_nil]
        omega
    · have hrest1 : 1 ≤ rest'.length := by
        cases rest' with
        | nil => exact absurd rfl hend
        | cons _ _ => simp
      have hnotend : ¬ pushed + 1 = totalRows := by
        simp only [List.length_cons] at hinv
        omega
      by_cases hfull : (rows ++ [r]).length = maxRowsPerPost
      · have hflush : pushed + 1 = totalRows ∨ (rows ++ [r]).length = maxRowsPerPost :=
          Or.inr hfull
        have hih := ih [] (pushed + 1)
          (by simp only [List.length_cons] at hinv; simpa using (by omega :
            pushed + 1 + rest'.length = totalRows)) hend (by simp [maxRowsPerPost])
        obtain ⟨h1, h2, h3, h4⟩ := hih
        simp only [insertAllGo, if_pos hflush, postedBatches, List.filterMap_cons]
        simp only [postedBatches] at h1 h2 h3 h4
        simp only [List.length_append, List.length_cons, List.length_nil,
          maxRowsPerPost] at hfull
        refine ⟨?_, ?_, ?_, ?_⟩
        · simp only [List.length_cons, h1, List.length_nil]
          omega
        · simp only [List.flatMap_cons]
          rw [← h2]
          rfl
        · simp only [List.flatten_cons, h3]
          simp
        · intro b hb
          simp only [List.mem_cons] at hb
          rcases hb with hb | hb
          · subst hb
            simp only [maxRowsPerPost, List.length_append, List.length_cons,
              List.length_nil]
            omega
          · exact h4 b hb
      · have hflush : ¬ (pushed + 1 = totalRows ∨ (rows ++ [r]).length = maxRowsPerPost) := by
          intro hc
          rcases hc with hc | hc
          · exact hnotend hc
          · exact hfull hc
        simp only [insertAllGo, if_neg hflush]
        have hlen' : (rows ++ [r]).length < maxRowsPerPost := by
          simp only [List.length_append, List.length_cons, List.length_nil,
            maxRowsPerPost] at hfull ⊢
          omega
        have hih := ih (rows ++ [r]) (pushed + 1)
          (by simp only [List.length_cons] at hinv
              simpa using (by omega : pushed + 1 + rest'.length = totalRows))
          hend hlen'
        obtain ⟨h1, h2, h3, h4⟩ := hih
        refine ⟨?_, h2, ?_, h4⟩
        · rw [h1]
          simp only [List.length_append, List.length_cons, List.length_nil]
          omega
        · rw [h3]
          simp

/-- **C4**: for every non-empty insert source of `N` records,
`Table.insertAll` issues exactly `ceil(N/500) = (N + 499) / 500`
physical insert requests; a request is flushed exactly when the batch
reaches 500 rows or the source is exhausted (the flushed batches are
non-empty, at most 500 rows each, and concatenate to the whole source in
order), and each `post` is immediately followed by the fixed 100 ms
sleep. -/
theorem insertAll_batches_spec (records : List ρ) (h : records ≠ []) :
    (insertAllBatches records).length = (records.length + 499) / 500
  ∧ insertAllEvents records
      = (insertAllBatches records).flatMap (fun b => [.post b, .sleep100ms])
  ∧ (insertAllBatches records).flatten = records
  ∧ ∀ b ∈ insertAllBatches records, 0 < b.length ∧ b.length ≤ maxRowsPerPost := by
  have hih := insertAllGo_spec records.length records [] 0 (by simp) h
    (by simp [maxRowsPerPost])
  simpa [insertAllBatches, insertAllEvents] using hih

/-- Witness for C4 at `N = 501`: two physical requests. -/
theorem insertAll_batches_spec_witness :
    ((insertAllBatches (List.replicate 501 (0:Nat))).length
        = ((List.replicate 501 (0:Nat)).length + 499) / 500
  ∧ insertAllEvents (List.replicate 501 (0:Nat))
      = (insertAllBatches (List.replicate 501 (0:Nat))).flatMap
          (fun b => [.post b, .sleep100ms])
  ∧ (insertAllBatches (List.replicate 501 (0:Nat))).flatten = List.replicate 501 (0:Nat)
  ∧ ∀ b ∈ insertAllBatches (List.replicate 501 (0:Nat)),
      0 < b.length ∧ b.length ≤ maxRowsPerPost) :=
  insertAll_batches_spec (List.replicate 501 (0:Nat))
    (List.length_pos.mp (by rw [List.length_replicate]; omega))

/-- Helper: a successful `insertAll` schema validation means every data
field exists in the table schema with the identical declared type. -/
theorem validateSchemas_ok_lookup :
    ∀ (dataSchema tableSchema : List SchemaField),
      validateSchemas dataSchema tableSchema = .ok () →
      ∀ f ∈ dataSchema, lookupFieldType tableSchema f.1 = some f.2 := by
  intro dataSchema
  induction dataSchema with
  | nil =>
    intro tableSchema _ f hf
    exact absurd hf (List.not_mem_nil f)
  | cons g rest ih =>
    intro tableSchema hok f hf
    simp only [validateSchemas] at hok
    rcases hlk : lookupFieldType tableSchema g.1 with _ | t
    · rw [hlk] at hok
      exact Except.noConfusion hok
    · rw [hlk] at hok
      dsimp only at hok
      by_cases ht : t ≠ g.2
      · rw [if_pos ht] at hok
        exact Except.noConfusion hok
      · rw [if_neg ht] at hok
        simp only [not_not] at ht
        subst ht
        rcases List.mem_cons.1 hf with hf | hf
        · subst hf
          exact hlk
        · exact ih tableSchema hok f hf

/-- **C9**: `_get_type` tests `int` before `bool` and Python booleans
satisfy `isinstance(value, int)`, so a boolean value is always inferred
as `INTEGER` (the `BOOLEAN` branch is unreachable) — in a dict-shaped
first record and in a list-shaped one alike — and inserting such data
into a table whose column is declared `BOOLEAN` fails `insertAll`'s
type validation. -/
theorem bool_inferred_as_integer :
    (∀ b, getFieldType (.pyBool b) = "INTEGER")
  ∧ (∀ v, getFieldType v ≠ "BOOLEAN")
  ∧ (∀ (entries : List (String × PyVal)) (rest : List Datum) (k : String) (b : Bool),
      (k, PyVal.pyBool b) ∈ entries →
      (k, "INTEGER") ∈ schemaFromList (.dict entries :: rest))
  ∧ (∀ (values : List PyVal) (rest : List Datum) (i : Nat) (b : Bool),
      values[i]? = some (.pyBool b) →
      (schemaFromList (.arr values :: rest))[i]?
        = some ("Column" ++ toString (i + 1), "INTEGER"))
  ∧ (∀ (dataSchema tableSchema : List SchemaField) (name : String),
      (name, "INTEGER") ∈ dataSchema →
      lookupFieldType tableSchema name = some "BOOLEAN" →
      validateSchemas dataSchema tableSchema ≠ .ok ()) := by
  refine ⟨fun b => rfl, ?_, ?_, ?_, ?_⟩
  · intro v
    cases v <;> simp [getFieldType, pyIsInstanceInt]
  · intro entries rest k b h
    have hm := List.mem_map_of_mem (fun kv => (kv.1, getFieldType kv.2)) h
    simpa [schemaFromList] using hm
  · intro values rest i b h
    simp only [schemaFromList, List.getElem?_map, List.getElem?_enum, h]
    rfl
  · intro dataSchema tableSchema name hmem hlk hok
    have := validateSchemas_ok_lookup dataSchema tableSchema hok
      (name, "INTEGER") hmem
    rw [hlk] at this
    simp at this

/-- Witness for C9: a one-field boolean record infers `INTEGER` and
fails validation against a `BOOLEAN` table column. -/
theorem bool_inferred_as_integer_witness :
    getFieldType (.pyBool true) = "INTEGER"
  ∧ ("flag", "INTEGER") ∈ schemaFromList [.dict [("flag", PyVal.pyBool true)]]
  ∧ (schemaFromList [Datum.arr [PyVal.pyBool false]])[0]?
      = some ("Column" ++ toString (0 + 1), "INTEGER")
  ∧ validateSchemas [("flag", "INTEGER")] [("flag", "BOOLEAN")] ≠ .ok () :=
  ⟨bool_inferred_as_integer.1 true,
   bool_inferred_as_integer.2.2.1 [("flag", PyVal.pyBool true)] [] "flag" true
     (by simp),
   bool_inferred_as_integer.2.2.2.1 [PyVal.pyBool false] [] 0 false rfl,
   bool_inferred_as_integer.2.2.2.2 [("flag", "INTEGER")] [("flag", "BOOLEAN")]
     "flag" (by simp) rfl⟩

/-- Helper: the one-page fetch `__getitem__` issues on a miss
(`fetcher(None, 0)` with `max_rows = page_size = n`) returns exactly the
slice of `n` remote rows starting at `first`. -/
theorem retrieveRows_page (table : List α) (first n : Nat) :
    (retrieveRows table (some n) n first none 0).rows
      = (table.drop first).take n := by
  by_cases hn : n = 0
  · subst hn
    simp [retrieveRows, truthyBudget, tabledataList]
  · have h := retrieveRows_budget_step table n n first 0 none (by omega) (by omega)
    rw [h]
    simp [tokenPos]

/-- Helper: a fresh single-row fetch at `i` returns `table[i]?`. -/
theorem freshSingleRowFetch_eq (table : List α) (i : Nat) :
    freshSingleRowFetch table i = table[i]? := by
  unfold freshSingleRowFetch
  rw [retrieveRows_page]
  rcases h : (table.drop i).take 1 with _ | ⟨a, tl⟩
  · have hlen := congrArg List.length h
    simp only [List.length_take, List.length_drop, List.length_nil] at hlen
    have hge : table.length ≤ i := by omega
    simp only [List.head?_nil]
    exact (List.getElem?_eq_none hge).symm
  · have h0 := congrArg (fun l => l[0]?) h
    simp only [List.getElem?_take_of_lt (by omega : 0 < 1), List.getElem?_drop,
      Nat.add_zero, List.getElem?_cons_zero] at h0
    simp only [List.head?_cons]
    exact h0.symm

/-- Helper: the cached-branch condition of lines 917-919 holds (no
miss) exactly when the index falls inside the cached page. -/
theorem cacheMiss_iff (st : TableCache α) (i : Nat) :
    ¬ cacheMiss st i ↔
      st.cachedPageIndex ≤ i ∧ i < st.cachedPageIndex + st.cachedPage.length := by
  unfold cacheMiss
  simp only [List.isEmpty_iff, not_or, not_lt, not_le]
  constructor
  · rintro ⟨_, h2, h3⟩
    exact ⟨h2, h3⟩
  · rintro ⟨h2, h3⟩
    refine ⟨?_, h2, h3⟩
    intro hnil
    rw [hnil] at h3
    simp only [List.length_nil] at h3
    omega

/-- Helper: `__getitem__` on any consistent cache state and any index
valid for the table returns `table[i]?`. -/
theorem getitem_fst (table : List α) (knownLength : Bool) (st : TableCache α)
    (i : Nat) (hcon : cacheConsistent table st) (hi : i < table.length) :
    (getitem table knownLength st i).1 = table[i]? := by
  obtain ⟨c, hc⟩ := hcon
  unfold getitem
  by_cases hmiss : cacheMiss st i
  · rw [if_pos hmiss]
    simp only [retrieveRows_page, defaultPageSize]
    have hlt : i - i / 1024 * 1024
        < cachePageCount table knownLength (i / 1024 * 1024) := by
      unfold cachePageCount
      split
      · omega
      · simp only [defaultPageSize]
        omega
    rw [List.getElem?_take_of_lt hlt, List.getElem?_drop,
      (by omega : i / 1024 * 1024 + (i - i / 1024 * 1024) = i)]
  · rw [if_neg hmiss]
    obtain ⟨h2, h3⟩ := (cacheMiss_iff st i).1 hmiss
    have hlen : st.cachedPage.length
        = min c (table.length - st.cachedPageIndex) := by
      rw [hc]
      simp [Nat.min_comm]
    have hlt : i - st.cachedPageIndex < c := by omega
    rw [hc, List.getElem?_take_of_lt hlt, List.getElem?_drop,
      (by omega : st.cachedPageIndex + (i - st.cachedPageIndex) = i)]

/-- Helper: `__getitem__` preserves cache consistency: the new page, if
any, is fetched wholesale from the remote table. -/
theorem getitem_preserves (table : List α) (knownLength : Bool) (st : TableCache α)
    (i : Nat) (hcon : cacheConsistent table st) :
    cacheConsistent table (getitem table knownLength st i).2 := by
  unfold getitem
  by_cases hmiss : cacheMiss st i
  · rw [if_pos hmiss]
    exact ⟨cachePageCount table knownLength (i / defaultPageSize * defaultPageSize),
      by simp [retrieveRows_page]⟩
  · rw [if_neg hmiss]
    exact hcon

/-- Helper: every cache state reachable from the initial state by a
sequence of indexed accesses is consistent. -/
theorem runAccesses_consistent (table : List α) (knownLength : Bool) :
    ∀ (accesses : List Nat) (st : TableCache α),
      cacheConsistent table st →
      cacheConsistent table (runAccesses table knownLength st accesses) := by
  intro accesses
  induction accesses with
  | nil =>
    intro st h
    exact h
  | cons a rest ih =>
    intro st h
    exact ih _ (getitem_preserves table knownLength st a h)

/-- **C1**: after any prior sequence of indexed accesses, `__getitem__`
at a valid index returns exactly what a fresh single-row fetch at that
index returns (the one-page cache never serves stale or foreign data); a
cache hit occurs exactly when
`cachedStart ≤ i < cachedStart + len(cachedPage)`; and on a miss the
cache is replaced wholesale by the single page starting at
`floor(i / pageSize) * pageSize`. -/
theorem getitem_cache_correct (table : List α) (knownLength : Bool)
    (accesses : List Nat) (i : Nat) (hi : i < table.length) :
    (getitem table knownLength (runAccesses table knownLength initCache accesses) i).1
        = freshSingleRowFetch table i
  ∧ (¬ cacheMiss (runAccesses table knownLength initCache accesses) i ↔
      (runAccesses table knownLength initCache accesses).cachedPageIndex ≤ i ∧
        i < (runAccesses table knownLength initCache accesses).cachedPageIndex
            + (runAccesses table knownLength initCache accesses).cachedPage.length)
  ∧ (cacheMiss (runAccesses table knownLength initCache accesses) i →
      (getitem table knownLength (runAccesses table knownLength initCache accesses) i).2
          = ⟨(table.drop (i / defaultPageSize * defaultPageSize)).take
                (cachePageCount table knownLength (i / defaultPageSize * defaultPageSize)),
             i / defaultPageSize * defaultPageSize⟩) := by
  have hcon : cacheConsistent table (runAccesses table knownLength initCache accesses) :=
    runAccesses_consistent table knownLength accesses initCache
      ⟨0, by simp [initCache]⟩
  refine ⟨?_, cacheMiss_iff _ i, ?_⟩
  · rw [getitem_fst table knownLength _ i hcon hi, freshSingleRowFetch_eq]
  · intro hmiss
    unfold getitem
    rw [if_pos hmiss]
    simp [retrieveRows_page]

/-- Witness for C1: on a three-row known-length table, after the access
sequence `[0, 2]`, reading index `1` still agrees with a fresh
single-row fetch. -/
theorem getitem_cache_correct_witness :
    ((getitem [10, 20, 30] true
        (runAccesses [10, 20, 30] true initCache [0, 2]) 1).1
        = freshSingleRowFetch [10, 20, 30] 1
  ∧ (¬ cacheMiss (runAccesses [10, 20, 30] true initCache [0, 2]) 1 ↔
      (runAccesses [10, 20, 30] true initCache [0, 2]).cachedPageIndex ≤ 1 ∧
        1 < (runAccesses [10, 20, 30] true initCache [0, 2]).cachedPageIndex
            + (runAccesses [10, 20, 30] true initCache [0, 2]).cachedPage.length)
  ∧ (cacheMiss (runAccesses [10, 20, 30] true initCache [0, 2]) 1 →
      (getitem [10, 20, 30] true
          (runAccesses [10, 20, 30] true initCache [0, 2]) 1).2
        = ⟨([10, 20, 30].drop (1 / defaultPageSize * defaultPageSize)).take
              (cachePageCount [10, 20, 30] true (1 / defaultPageSize * defaultPageSize)),
           1 / defaultPageSize * defaultPageSize⟩)) :=
  getitem_cache_correct [10, 20, 30] true [0, 2] 1 (by simp)

/-- Helper: `contains` on a character list agrees with decidable
membership. -/
theorem charList_contains_eq (l : List Char) (c : Char) :
    l.contains c = decide (c ∈ l) := by
  simp [List.contains_iff_exists_mem_beq]

/-- Helper: under the memo invariant, a memo hit returns the sanitized
form of the key. -/
theorem memoLookup_good (m : Memo) (k v : String) (hm : memoGood m)
    (h : memoLookup m k = some v) : v = sanitizeName k := by
  unfold memoLookup at h
  rcases hf : m.find? (fun e => e.1 = k) with _ | p
  · rw [hf] at h
    exact Option.noConfusion h
  · rw [hf] at h
    have hpm := List.mem_of_find?_eq_some hf
    have hpk : p.1 = k := by simpa using List.find?_some hf
    have hps : p.2 = sanitizeName p.1 := hm p hpm
    simp only [Option.map] at h
    injection h with h2
    rw [← h2, hps, hpk]

/-- Helper: lines 427-429 always map a key to its sanitized form and
preserve the memo invariant. -/
theorem appliedName_spec (m : Memo) (k : String) (hm : memoGood m) :
    (appliedName m k).1 = sanitizeName k ∧ memoGood (appliedName m k).2 := by
  unfold appliedName
  rcases hlk : memoLookup m k with _ | v
  · refine ⟨rfl, ?_⟩
    intro p hp
    rcases List.mem_append.1 hp with hp | hp
    · exact hm p hp
    · simp only [List.mem_singleton] at hp
      subst hp
      rfl
  · exact ⟨memoLookup_good m k v hm hlk, hm⟩

/-- Helper: one key step of `_encode_dict_as_row` preserves the memo
invariant. -/
theorem encodeKey_memoGood (rm : Record × Memo) (k : String)
    (hm : memoGood rm.2) : memoGood (encodeKey rm k).2 := by
  unfold encodeKey
  rcases dictLookup rm.1 k with _ | v0
  · exact hm
  · have := (appliedName_spec rm.2 k hm).2
    dsimp only
    split <;> exact this

/-- Helper: the whole key fold of `_encode_dict_as_row` preserves the
memo invariant. -/
theorem encodeFold_memoGood :
    ∀ (ks : List String) (c : Record) (m : Memo),
      memoGood m → memoGood (ks.foldl encodeKey (c, m)).2 := by
  intro ks
  induction ks with
  | nil =>
    intro c m hm
    exact hm
  | cons k ks ih =>
    intro c m hm
    simp only [List.foldl_cons]
    exact ih (encodeKey (c, m) k).1 (encodeKey (c, m) k).2
      (encodeKey_memoGood (c, m) k hm)

/-- Helper: encoding a whole batch through the shared memo preserves the
memo invariant at every record boundary. -/
theorem encodeAll_memoGood :
    ∀ (records : List Record) (m : Memo),
      memoGood m → memoGood (encodeAll records m).2 := by
  intro records
  induction records with
  | nil =>
    intro m hm
    exact hm
  | cons r rest ih =>
    intro m hm
    simp only [encodeAll]
    exact ih _ (encodeFold_memoGood (dictKeys r) r m hm)

/-- **C7**: the character set `_VALID_COLUMN_NAME_CHARACTERS` is exactly
the class `[A-Za-z0-9_]`, sanitization is the filter keeping exactly
those characters (stripping, not replacing), and within one `insertAll`
call the memoized mapping is pure: under the memo invariant — which
holds initially and is preserved across the entire batch — every
occurrence of an original name maps to the same sanitized output,
namely `sanitizeName`. -/
theorem sanitize_memoized_consistent :
    (∀ c, c ∈ validColumnNameCharacters.data ↔ c ∈ specValidChars)
  ∧ (∀ k, (sanitizeName k).data
        = k.data.filter (fun c => decide (c ∈ specValidChars)))
  ∧ (∀ (m : Memo) (k : String), memoGood m →
      (appliedName m k).1 = sanitizeName k ∧ memoGood (appliedName m k).2)
  ∧ (∀ (records : List Record) (m : Memo), memoGood m →
      memoGood (encodeAll records m).2) := by
  have h1 : ∀ c ∈ validColumnNameCharacters.data, c ∈ specValidChars := by decide
  have h2 : ∀ c ∈ specValidChars, c ∈ validColumnNameCharacters.data := by decide
  refine ⟨fun c => ⟨fun h => h1 c h, fun h => h2 c h⟩, ?_, appliedName_spec,
    encodeAll_memoGood⟩
  intro k
  show k.data.filter (fun c => validColumnNameCharacters.data.contains c)
      = k.data.filter (fun c => decide (c ∈ specValidChars))
  refine List.filter_congr ?_
  intro c _
  rw [charList_contains_eq]
  by_cases h : c ∈ specValidChars
  · simp [h, h2 c h]
  · have : c ∉ validColumnNameCharacters.data := fun hc => h (h1 c hc)
    simp [h, this]

/-- Witness for C7: concrete instances — underscore is valid, a name
with a space and a bang sanitizes by filtering, and the memo facts hold
from the empty memo. -/
theorem sanitize_memoized_consistent_witness :
    ('_' ∈ validColumnNameCharacters.data ↔ '_' ∈ specValidChars)
  ∧ (sanitizeName "a b!c").data
      = "a b!c".data.filter (fun c => decide (c ∈ specValidChars))
  ∧ ((appliedName [] "a b!c").1 = sanitizeName "a b!c"
      ∧ memoGood (appliedName [] "a b!c").2)
  ∧ memoGood (encodeAll [[("x y", BQVal.str "v")]] []).2 :=
  ⟨sanitize_memoized_consistent.1 '_',
   sanitize_memoized_consistent.2.1 "a b!c",
   sanitize_memoized_consistent.2.2.1 [] "a b!c"
     (fun p hp => absurd hp (List.not_mem_nil p)),
   sanitize_memoized_consistent.2.2.2 [[("x y", BQVal.str "v")]] []
     (fun p hp => absurd hp (List.not_mem_nil p))⟩

/-- Helper: `record[k] = v` makes `k` read back as `v`. -/
theorem dictLookup_set_self (r : Record) (k : String) (v : BQVal) :
    dictLookup (dictSet r k v) k = some v := by
  unfold dictSet
  by_cases hany : r.any (fun e => e.1 = k) = true
  · rw [if_pos hany]
    induction r with
    | nil => simp at hany
    | cons e es ih =>
      simp only [List.map_cons]
      by_cases he : e.1 = k
      · rw [if_pos he]
        unfold dictLookup
        rw [List.find?_cons_of_pos _ (by simp)]
        rfl
      · rw [if_neg he]
        unfold dictLookup
        rw [List.find?_cons_of_neg _ (by simpa using he)]
        exact ih (by simpa [he] using hany)
  · rw [if_neg hany]
    unfold dictLookup
    rw [List.find?_append]
    have hnone : r.find? (fun e => e.1 = k) = none := by
      rw [List.find?_eq_none]
      intro e he
      simp only [List.any_eq_true, not_exists, not_and] at hany
      simpa using hany e he
    rw [hnone]
    simp

/-- Helper: `record[k] = v` leaves every other key unchanged. -/
theorem dictLookup_set_ne (r : Record) (k : String) (v : BQVal) (j : String)
    (hj : j ≠ k) : dictLookup (dictSet r k v) j = dictLookup r j := by
  unfold dictSet
  by_cases hany : r.any (fun e => e.1 = k) = true
  · rw [if_pos hany]
    clear hany
    induction r with
    | nil => rfl
    | cons e es ih =>
      simp only [List.map_cons]
      by_cases he : e.1 = k
      · rw [if_pos he]
        unfold dictLookup
        rw [List.find?_cons_of_neg _ (by simpa using fun hc => hj hc.symm),
          List.find?_cons_of_neg _ (by
            simp only [decide_eq_true_eq]
            intro hc
            exact hj (by rw [← hc, he]))]
        exact ih
      · rw [if_neg he]
        unfold dictLookup
        by_cases hej : e.1 = j
        · rw [List.find?_cons_of_pos _ (by simpa using hej),
            List.find?_cons_of_pos _ (by simpa using hej)]
        · rw [List.find?_cons_of_neg _ (by simpa using hej),
            List.find?_cons_of_neg _ (by simpa using hej)]
          exact ih
  · rw [if_neg hany]
    unfold dictLookup
    rw [List.find?_append]
    have h2 : List.find? (fun e => e.1 = j) [(k, v)] = none := by
      rw [List.find?_eq_none]
      intro e he
      simp only [List.mem_singleton] at he
      subst he
      simpa using fun hc => hj hc.symm
    rw [h2, Option.or_none]

/-- Helper: `del record[k]` removes `k`. -/
theorem dictLookup_del_self (r : Record) (k : String) :
    dictLookup (dictDel r k) k = none := by
  unfold dictDel dictLookup
  have hnone : (r.filter (fun e => ¬ e.1 = k)).find? (fun e => e.1 = k) = none := by
    rw [List.find?_eq_none]
    intro e he
    have := List.of_mem_filter he
    simpa using this
  rw [hnone]
  rfl

/-- Helper: `del record[k]` leaves every other key unchanged. -/
theorem dictLookup_del_ne (r : Record) (k : String) (j : String) (hj : j ≠ k) :
    dictLookup (dictDel r k) j = dictLookup r j := by
  unfold dictDel dictLookup
  induction r with
  | nil => rfl
  | cons e es ih =>
    by_cases hek : (e.1 = k)
    · rw [List.filter_cons_of_neg (by simpa using hek)]
      rw [List.find?_cons_of_neg _ (by simpa using fun hc : e.1 = j => hj (hek ▸ hc).symm)]
      exact ih
    · rw [List.filter_cons_of_pos (by simpa using hek)]
      by_cases hej : e.1 = j
      · rw [List.find?_cons_of_pos _ (by simpa using hej),
          List.find?_cons_of_pos _ (by simpa using hej)]
      · rw [List.find?_cons_of_neg _ (by simpa using hej),
          List.find?_cons_of_neg _ (by simpa using hej)]
        exact ih

/-- Helper: a key is absent exactly when it is not among the record's
keys. -/
theorem dictLookup_eq_none_iff (r : Record) (j : String) :
    dictLookup r j = none ↔ j ∉ dictKeys r := by
  unfold dictLookup dictKeys
  rw [Option.map_eq_none', List.find?_eq_none]
  constructor
  · intro h hmem
    obtain ⟨e, he, hej⟩ := List.mem_map.1 hmem
    exact absurd (by simpa using hej) (by simpa using h e he)
  · intro h e he
    simp only [decide_eq_true_eq]
    intro hej
    exact h (hej ▸ List.mem_map_of_mem _ he)

/-- Helper: with distinct keys, membership of an entry determines the
lookup. -/
theorem dictLookup_of_mem (r : Record) (k : String) (v : BQVal)
    (hnd : (dictKeys r).Nodup) (hmem : (k, v) ∈ r) :
    dictLookup r k = some v := by
  induction r with
  | nil => exact absurd hmem (List.not_mem_nil _)
  | cons e es ih =>
    rcases List.mem_cons.1 hmem with he | he
    · subst he
      unfold dictLookup
      rw [List.find?_cons_of_pos _ (by simp)]
      rfl
    · have hnd2 := hnd
      rw [dictKeys, List.map_cons] at hnd2
      have hnd' : (dictKeys es).Nodup := (List.nodup_cons.1 hnd2).2
      have hhead := (List.nodup_cons.1 hnd2).1
      have hk : ¬ e.1 = k := by
        intro hek
        apply hhead
        rw [hek]
        exact List.mem_map_of_mem _ he
      unfold dictLookup
      rw [List.find?_cons_of_neg _ (by simpa using hk)]
      exact ih hnd' he

/-- Helper: a non-timestamp value is unchanged by line 424. -/
theorem encVal_of_not_timestamp (v : BQVal) (h : isTimestampVal v = false) :
    encVal v = v := by
  cases v with
  | timestamp iso => simp [isTimestampVal] at h
  | str s => rfl
  | int n => rfl

/-- Helper: one key step of `_encode_dict_as_row` on a present key `k`:
the memo stays good, every key other than `k` and `sanitizeName k` is
untouched, a sanitization-fixed key keeps its (possibly ISO-encoded)
value in place, and a renamed key is deleted with its value moved under
the sanitized name. -/
theorem encodeKey_lookup (c : Record) (m : Memo) (k : String) (v0 : BQVal)
    (hm : memoGood m) (hv : dictLookup c k = some v0) :
    memoGood (encodeKey (c, m) k).2
  ∧ (∀ j, j ≠ k → j ≠ sanitizeName k →
      dictLookup (encodeKey (c, m) k).1 j = dictLookup c j)
  ∧ (sanitizeName k = k →
      dictLookup (encodeKey (c, m) k).1 k = some (encVal v0))
  ∧ (sanitizeName k ≠ k →
      dictLookup (encodeKey (c, m) k).1 k = none
    ∧ dictLookup (encodeKey (c, m) k).1 (sanitizeName k) = some (encVal v0)) := by
  obtain ⟨hname, hgood⟩ := appliedName_spec m k hm
  rcases happ : appliedName m k with ⟨nk, m'⟩
  rw [happ] at hname hgood
  simp only at hname hgood
  subst hname
  unfold encodeKey
  rw [hv, happ]
  dsimp only
  by_cases hs : sanitizeName k = k
  · rw [if_neg (by simp [hs])]
    refine ⟨hgood, ?_, ?_, fun hne => absurd hs hne⟩
    · intro j hjk _
      by_cases hts : isTimestampVal v0
      · rw [if_pos (by simpa using hts)]
        exact dictLookup_set_ne c k (encVal v0) j hjk
      · rw [if_neg (by simpa using hts)]
    · intro _
      by_cases hts : isTimestampVal v0
      · rw [if_pos (by simpa using hts)]
        exact dictLookup_set_self c k (encVal v0)
      · rw [if_neg (by simpa using hts)]
        rw [hv, encVal_of_not_timestamp v0 (by simpa using hts)]
  · rw [if_pos (by simpa using fun hc => hs hc.symm)]
    refine ⟨hgood, ?_, fun heq => absurd heq hs, fun _ => ⟨?_, ?_⟩⟩
    · intro j hjk hjs
      rw [dictLookup_del_ne _ k j hjk, dictLookup_set_ne _ (sanitizeName k) _ j hjs]
      by_cases hts : isTimestampVal v0
      · rw [if_pos (by simpa using hts)]
        exact dictLookup_set_ne c k (encVal v0) j hjk
      · rw [if_neg (by simpa using hts)]
    · exact dictLookup_del_self _ k
    · rw [dictLookup_del_ne _ k (sanitizeName k) hs]
      exact dictLookup_set_self _ (sanitizeName k) (encVal v0)

/-- Helper: lookup characterization of the whole key fold of
`_encode_dict_as_row`.  With distinct pending keys, all present in the
current record, all sanitized names of renamed keys fresh (absent from
the record and not pending), and sanitization injective on the pending
keys: keys untouched by the fold keep their lookup, a
sanitization-fixed pending key maps to its encoded value in place, and a
renamed pending key is deleted with its encoded value under the
sanitized name. -/
theorem encodeFold_lookup :
    ∀ (ks : List String) (c : Record) (m : Memo),
      memoGood m → ks.Nodup →
      (∀ k ∈ ks, (dictLookup c k).isSome = true) →
      (∀ k ∈ ks, sanitizeName k ≠ k →
        dictLookup c (sanitizeName k) = none ∧ sanitizeName k ∉ ks) →
      (∀ k1 ∈ ks, ∀ k2 ∈ ks, sanitizeName k1 = sanitizeName k2 → k1 = k2) →
      (∀ j, j ∉ ks → (∀ k ∈ ks, sanitizeName k ≠ j) →
        dictLookup (ks.foldl encodeKey (c, m)).1 j = dictLookup c j)
      ∧ (∀ j ∈ ks,
          (sanitizeName j = j →
            dictLookup (ks.foldl encodeKey (c, m)).1 j
              = (dictLookup c j).map encVal)
        ∧ (sanitizeName j ≠ j →
            dictLookup (ks.foldl encodeKey (c, m)).1 j = none
          ∧ dictLookup (ks.foldl encodeKey (c, m)).1 (sanitizeName j)
              = (dictLookup c j).map encVal)) := by
  intro ks
  induction ks with
  | nil =>
    intro c m _ _ _ _ _
    exact ⟨fun j _ _ => rfl, fun j hj => absurd hj (List.not_mem_nil j)⟩
  | cons k0 ks' ih =>
    intro c m hm hnd hA hB hC
    have hk0 : k0 ∉ ks' := (List.nodup_cons.1 hnd).1
    have hnd' : ks'.Nodup := (List.nodup_cons.1 hnd).2
    rcases hv : dictLookup c k0 with _ | v0
    · have := hA k0 (List.mem_cons_self k0 ks')
      rw [hv] at this
      simp at this
    obtain ⟨hgood, hunch, hkeq, hkne⟩ := encodeKey_lookup c m k0 v0 hm hv
    -- a pending tail key is never `k0` nor `sanitizeName k0`
    have htail_ne : ∀ k ∈ ks', k ≠ k0 ∧ k ≠ sanitizeName k0 := by
      intro k hk
      refine ⟨fun hc => hk0 (hc ▸ hk), ?_⟩
      intro hc
      by_cases hs0 : sanitizeName k0 = k0
      · exact hk0 ((hc.trans hs0) ▸ hk)
      · exact (hB k0 (List.mem_cons_self k0 ks') hs0).2
          (List.mem_cons_of_mem k0 (hc ▸ hk))
    -- the sanitized name of a renamed tail key is never `k0` nor
    -- `sanitizeName k0`
    have hsan_ne : ∀ k ∈ ks', sanitizeName k ≠ k →
        sanitizeName k ≠ k0 ∧ sanitizeName k ≠ sanitizeName k0 := by
      intro k hk hsk
      have hnotin := (hB k (List.mem_cons_of_mem k0 hk) hsk).2
      refine ⟨fun hc => hnotin (hc ▸ List.mem_cons_self k0 ks'), ?_⟩
      intro hc
      have := hC k (List.mem_cons_of_mem k0 hk) k0 (List.mem_cons_self k0 ks') hc
      exact (htail_ne k hk).1 this
    -- `k0` and `sanitizeName k0` are untouched by the tail fold
    have hfresh_k0 : ∀ k ∈ ks', sanitizeName k ≠ k0 := by
      intro k hk
      by_cases hsk : sanitizeName k = k
      · rw [hsk]
        exact (htail_ne k hk).1
      · exact (hsan_ne k hk hsk).1
    have hfresh_s0 : ∀ k ∈ ks', sanitizeName k ≠ sanitizeName k0 := by
      intro k hk
      by_cases hsk : sanitizeName k = k
      · rw [hsk]
        exact (htail_ne k hk).2
      · exact (hsan_ne k hk hsk).2
    -- re-establish the invariants on the stepped record
    have hunch' : ∀ k ∈ ks',
        dictLookup (encodeKey (c, m) k0).1 k = dictLookup c k := by
      intro k hk
      exact hunch k (htail_ne k hk).1 (htail_ne k hk).2
    have hA' : ∀ k ∈ ks', (dictLookup (encodeKey (c, m) k0).1 k).isSome = true := by
      intro k hk
      rw [hunch' k hk]
      exact hA k (List.mem_cons_of_mem k0 hk)
    have hB' : ∀ k ∈ ks', sanitizeName k ≠ k →
        dictLookup (encodeKey (c, m) k0).1 (sanitizeName k) = none
        ∧ sanitizeName k ∉ ks' := by
      intro k hk hsk
      obtain ⟨hn0, hnotin⟩ := hB k (List.mem_cons_of_mem k0 hk) hsk
      refine ⟨?_, fun hc => hnotin (List.mem_cons_of_mem k0 hc)⟩
      rw [hunch (sanitizeName k) (hsan_ne k hk hsk).1 (hsan_ne k hk hsk).2]
      exact hn0
    have hC' : ∀ k1 ∈ ks', ∀ k2 ∈ ks', sanitizeName k1 = sanitizeName k2 → k1 = k2 :=
      fun k1 h1 k2 h2 => hC k1 (List.mem_cons_of_mem k0 h1) k2 (List.mem_cons_of_mem k0 h2)
    obtain ⟨ihfresh, ihmem⟩ := ih (encodeKey (c, m) k0).1 (encodeKey (c, m) k0).2
      hgood hnd' hA' hB' hC'
    simp only [List.foldl_cons]
    constructor
    · intro j hj hjs
      have hj' : j ∉ ks' := fun hc => hj (List.mem_cons_of_mem k0 hc)
      have hjk0 : j ≠ k0 := fun hc => hj (hc ▸ List.mem_cons_self k0 ks')
      have hjs0 : sanitizeName k0 ≠ j := hjs k0 (List.mem_cons_self k0 ks')
      rw [ihfresh j hj' (fun k hk => hjs k (List.mem_cons_of_mem k0 hk)),
        hunch j hjk0 (fun hc => hjs0 hc.symm)]
    · intro j hj
      rcases List.mem_cons.1 hj with hj0 | hjtail
      · subst hj0
        constructor
        · intro hs
          rw [ihfresh j hk0 hfresh_k0, hkeq hs, hv]
          rfl
        · intro hs
          obtain ⟨hdel, hmoved⟩ := hkne hs
          refine ⟨?_, ?_⟩
          · rw [ihfresh j hk0 hfresh_k0, hdel]
          · have hs_notin : sanitizeName j ∉ ks' := fun hc =>
              (hB j (List.mem_cons_self j ks') hs).2 (List.mem_cons_of_mem j hc)
            rw [ihfresh (sanitizeName j) hs_notin hfresh_s0, hmoved, hv]
            rfl
      · have hrw : dictLookup (encodeKey (c, m) k0).1 j = dictLookup c j :=
          hunch' j hjtail
        obtain ⟨hfix, hren⟩ := ihmem j hjtail
        constructor
        · intro hs
          rw [hfix hs, hrw]
        · intro hs
          obtain ⟨hnone, hmoved⟩ := hren hs
          exact ⟨hnone, by rw [hmoved, hrw]⟩

/-- Helper: encoding preserves the number of records. -/
theorem encodeAll_fst_length (records : List Record) :
    ∀ m : Memo, (encodeAll records m).1.length = records.length := by
  induction records with
  | nil => intro m; rfl
  | cons r rest ih =>
    intro m
    simp only [encodeAll, List.length_cons]
    rw [ih]

/-- Helper: encoding a concatenated batch is encoding the first part and
then the second with the threaded memo. -/
theorem encodeAll_append (l1 l2 : List Record) :
    ∀ m : Memo, (encodeAll (l1 ++ l2) m).1
      = (encodeAll l1 m).1 ++ (encodeAll l2 (encodeAll l1 m).2).1 := by
  induction l1 with
  | nil => intro m; rfl
  | cons r rest ih =>
    intro m
    rw [List.cons_append]
    simp only [encodeAll]
    rw [ih]
    rw [List.cons_append]

/-- Helper: lookup characterization of `_encode_dict_as_row` on a whole
record with distinct keys, fresh sanitized names, and
sanitization injective on the keys. -/
theorem encodeDictAsRow_lookup (r : Record) (m : Memo) (hm : memoGood m)
    (h1 : (dictKeys r).Nodup)
    (h2 : ∀ k ∈ dictKeys r, sanitizeName k ≠ k → sanitizeName k ∉ dictKeys r)
    (h3 : ∀ k1 ∈ dictKeys r, ∀ k2 ∈ dictKeys r,
        sanitizeName k1 = sanitizeName k2 → k1 = k2) :
    (∀ k v, (k, v) ∈ r → sanitizeName k = k →
        dictLookup (encodeDictAsRow r m).1 k = some (encVal v))
  ∧ (∀ k v, (k, v) ∈ r → sanitizeName k ≠ k →
        dictLookup (encodeDictAsRow r m).1 k = none
      ∧ dictLookup (encodeDictAsRow r m).1 (sanitizeName k) = some (encVal v)) := by
  have hA : ∀ k ∈ dictKeys r, (dictLookup r k).isSome = true := by
    intro k hk
    obtain ⟨e, he, hek⟩ := List.mem_map.1 hk
    rw [dictLookup_of_mem r k e.2 h1 (by rw [← hek]; exact he)]
    rfl
  have hB : ∀ k ∈ dictKeys r, sanitizeName k ≠ k →
      dictLookup r (sanitizeName k) = none ∧ sanitizeName k ∉ dictKeys r := by
    intro k hk hsk
    exact ⟨(dictLookup_eq_none_iff r (sanitizeName k)).2 (h2 k hk hsk), h2 k hk hsk⟩
  obtain ⟨_, hmem⟩ := encodeFold_lookup (dictKeys r) r m hm h1 hA hB h3
  constructor
  · intro k v hkv hs
    have hk : k ∈ dictKeys r := by
      rw [← show (k, v).1 = k from rfl]
      exact List.mem_map_of_mem _ hkv
    have := (hmem k hk).1 hs
    rw [dictLookup_of_mem r k v h1 hkv] at this
    exact this
  · intro k v hkv hs
    have hk : k ∈ dictKeys r := by
      rw [← show (k, v).1 = k from rfl]
      exact List.mem_map_of_mem _ hkv
    have := (hmem k hk).2 hs
    rw [dictLookup_of_mem r k v h1 hkv] at this
    exact this

/-- Helper: a record holding a timestamp value or an invalid-character
key is visibly changed by `_encode_dict_as_row`. -/
theorem encodeDictAsRow_ne (r : Record) (m : Memo) (hm : memoGood m)
    (h1 : (dictKeys r).Nodup)
    (h2 : ∀ k ∈ dictKeys r, sanitizeName k ≠ k → sanitizeName k ∉ dictKeys r)
    (h3 : ∀ k1 ∈ dictKeys r, ∀ k2 ∈ dictKeys r,
        sanitizeName k1 = sanitizeName k2 → k1 = k2)
    (k : String) (v : BQVal) (hkv : (k, v) ∈ r)
    (hch : isTimestampVal v = true ∨ sanitizeName k ≠ k) :
    (encodeDictAsRow r m).1 ≠ r := by
  obtain ⟨hfix, hren⟩ := encodeDictAsRow_lookup r m hm h1 h2 h3
  intro heq
  by_cases hs : sanitizeName k = k
  · rcases hch with hts | hne
    · rcases v with iso | s | n
      · have hl := hfix k (.timestamp iso) hkv hs
        rw [heq, dictLookup_of_mem r k (.timestamp iso) h1 hkv] at hl
        simp [encVal] at hl
      · simp [isTimestampVal] at hts
      · simp [isTimestampVal] at hts
    · exact hne hs
  · have hl := (hren k v hkv hs).1
    rw [heq, dictLookup_of_mem r k v h1 hkv] at hl
    exact Option.noConfusion hl

/-- **C10**: `_encode_dict_as_row` mutates the caller's record in place
(the returned record IS the caller's dictionary after the call, which
`insertAll` reuses for its payload): a timestamp-valued field is
replaced by its ISO string in the caller's dictionary — in place for a
sanitization-fixed key, under the sanitized name for a renamed key —
every key with invalid characters is deleted and its sanitized key
added, and consequently, after `insertAll` returns, a batch containing
such a record at any position is no longer equal to what was passed in.
(Scoped to records with distinct keys whose sanitized names collide
neither with existing keys nor with each other.) -/
theorem encode_mutates_caller_record (r : Record) (m : Memo) (hm : memoGood m)
    (h1 : (dictKeys r).Nodup)
    (h2 : ∀ k ∈ dictKeys r, sanitizeName k ≠ k → sanitizeName k ∉ dictKeys r)
    (h3 : ∀ k1 ∈ dictKeys r, ∀ k2 ∈ dictKeys r,
        sanitizeName k1 = sanitizeName k2 → k1 = k2) :
    (∀ k iso, (k, BQVal.timestamp iso) ∈ r → sanitizeName k = k →
        dictLookup (encodeDictAsRow r m).1 k = some (.str iso))
  ∧ (∀ k v, (k, v) ∈ r → sanitizeName k ≠ k →
        dictLookup (encodeDictAsRow r m).1 k = none
      ∧ dictLookup (encodeDictAsRow r m).1 (sanitizeName k) = some (encVal v))
  ∧ (∀ k v, (k, v) ∈ r → isTimestampVal v = true ∨ sanitizeName k ≠ k →
        (encodeDictAsRow r m).1 ≠ r)
  ∧ (∀ (pre rest : List Record) (k : String) (v : BQVal),
        (k, v) ∈ r → isTimestampVal v = true ∨ sanitizeName k ≠ k →
        (encodeAll (pre ++ r :: rest) m).1 ≠ pre ++ r :: rest) := by
  obtain ⟨hfix, hren⟩ := encodeDictAsRow_lookup r m hm h1 h2 h3
  refine ⟨fun k iso hkv hs => hfix k (.timestamp iso) hkv hs, hren,
    encodeDictAsRow_ne r m hm h1 h2 h3, ?_⟩
  intro pre rest k v hkv hch heq
  have hm2 : memoGood (encodeAll pre m).2 := encodeAll_memoGood pre m hm
  have hlen : (encodeAll pre m).1.length = pre.length := encodeAll_fst_length pre m
  have hidx := congrArg (fun l => l[pre.length]?) heq
  simp only at hidx
  rw [encodeAll_append pre (r :: rest) m,
    List.getElem?_append_right (le_of_eq hlen),
    List.getElem?_append_right (le_refl pre.length),
    hlen, Nat.sub_self] at hidx
  simp only [encodeAll, List.getElem?_cons_zero] at hidx
  have henc : (encodeDictAsRow r (encodeAll pre m).2).1 = r := by
    injection hidx
  exact encodeDictAsRow_ne r (encodeAll pre m).2 hm2 h1 h2 h3 k v hkv hch henc

/-- Witness for C10: a two-field record with a timestamp value under a
valid key and a string under a key containing a space: the timestamp is
ISO-encoded in place, the invalid key is renamed, and the encoded batch
differs from the input. -/
theorem encode_mutates_caller_record_witness :
    (∀ k iso, (k, BQVal.timestamp iso) ∈
          ([("ts", BQVal.timestamp "2015-01-01T00:00:00"), ("a b", BQVal.str "x")] : Record) →
        sanitizeName k = k →
        dictLookup (encodeDictAsRow
          [("ts", BQVal.timestamp "2015-01-01T00:00:00"), ("a b", BQVal.str "x")] []).1 k
          = some (.str iso))
  ∧ (∀ k v, (k, v) ∈
        ([("ts", BQVal.timestamp "2015-01-01T00:00:00"), ("a b", BQVal.str "x")] : Record) →
        sanitizeName k ≠ k →
        dictLookup (encodeDictAsRow
          [("ts", BQVal.timestamp "2015-01-01T00:00:00"), ("a b", BQVal.str "x")] []).1 k = none
      ∧ dictLookup (encodeDictAsRow
          [("ts", BQVal.timestamp "2015-01-01T00:00:00"), ("a b", BQVal.str "x")] []).1
          (sanitizeName k) = some (encVal v))
  ∧ (∀ k v, (k, v) ∈
        ([("ts", BQVal.timestamp "2015-01-01T00:00:00"), ("a b", BQVal.str "x")] : Record) →
        isTimestampVal v = true ∨ sanitizeName k ≠ k →
        (encodeDictAsRow
          [("ts", BQVal.timestamp "2015-01-01T00:00:00"), ("a b", BQVal.str "x")] []).1
          ≠ [("ts", BQVal.timestamp "2015-01-01T00:00:00"), ("a b", BQVal.str "x")])
  ∧ (∀ (pre rest : List Record) (k : String) (v : BQVal),
        (k, v) ∈
          ([("ts", BQVal.timestamp "2015-01-01T00:00:00"), ("a b", BQVal.str "x")] : Record) →
        isTimestampVal v = true ∨ sanitizeName k ≠ k →
        (encodeAll (pre ++
          [("ts", BQVal.timestamp "2015-01-01T00:00:00"), ("a b", BQVal.str "x")] :: rest)
          []).1
          ≠ pre ++
            [("ts", BQVal.timestamp "2015-01-01T00:00:00"), ("a b", BQVal.str "x")] :: rest) :=
  encode_mutates_caller_record
    [("ts", BQVal.timestamp "2015-01-01T00:00:00"), ("a b", BQVal.str "x")] []
    (fun p hp => absurd hp (List.not_mem_nil p))
    (by decide) (by decide) (by decide)

end BQTable
